import Mathlib

/-!
Verification of the SyncLog component (src/libbuteosyncfw/profile/SyncLog.cpp)
of buteo-syncfw: a bounded per-profile history of sync results, a cache of
the best successful result that survives eviction, and XML (de)serialization.

The `SyncLog` state merges the C++ `SyncLog`/`SyncLogPrivate` pair (the
`d_ptr` indirection carries no behaviour).  Raw owned pointers become plain
values; `0`/null pointers become `Option`.
-/

namespace Buteo

/-- Modelled from the spec: `SyncResults::SYNC_RESULT_SUCCESS`, the major
outcome code denoting success.  The enum lives in SyncResults.h, outside this
core; only its identity matters here. -/
def SYNC_RESULT_SUCCESS : Nat := 0

/-- Modelled from the spec: `SyncResults::NO_ERROR`, the minor outcome code
denoting no error.  The enum lives in SyncResults.h, outside this core. -/
def NO_ERROR : Nat := 0

/-- Modelled from the spec: tag of the sync-log container element
(`TAG_SYNC_LOG` from ProfileEngineDefs.h, outside this core). -/
def TAG_SYNC_LOG : String := "synclog"

/-- Modelled from the spec: tag of one serialized result entry
(`TAG_SYNC_RESULTS` from ProfileEngineDefs.h, outside this core). -/
def TAG_SYNC_RESULTS : String := "syncresults"

/-- Modelled from the spec: the identifying attribute holding the profile
name (`ATTR_NAME` from ProfileEngineDefs.h, outside this core). -/
def ATTR_NAME : String := "name"

/-- Modelled from the spec: the external collaborator type `SyncResults`
(one outcome record), reduced to the interface this core consumes: major
outcome code, minor outcome code, and a sync timestamp that may be null
(`none`). -/
structure SyncResults where
  majorCode : Nat
  minorCode : Nat
  syncTime : Option Nat
deriving DecidableEq

/-- A null sync timestamp maps below every set one; set timestamps keep
their numeric order.  Auxiliary key for the Result total order. -/
def encTime : Option Nat → Nat
  | none => 0
  | some t => t + 1

/-- Modelled from the spec: the total order on `SyncResults`
(`SyncResults::operator<`, outside this core): primarily by sync time (a
null time earliest), with the outcome codes as tie-breakers so that the
order is total, as the spec requires. -/
def SyncResults.ltProp (a b : SyncResults) : Prop :=
  encTime a.syncTime < encTime b.syncTime ∨
    (encTime a.syncTime = encTime b.syncTime ∧
      (a.majorCode < b.majorCode ∨
        (a.majorCode = b.majorCode ∧ a.minorCode < b.minorCode)))

instance (a b : SyncResults) : Decidable (SyncResults.ltProp a b) := by
  unfold SyncResults.ltProp; infer_instance

/-- Boolean form of the Result total order, `a < b`. -/
def SyncResults.lt (a b : SyncResults) : Bool :=
  decide (SyncResults.ltProp a b)

/-- Modelled from the spec: the `SyncResults` copy constructor (outside this
core) duplicates the record field by field. -/
def SyncResults.clone (r : SyncResults) : SyncResults :=
  ⟨r.majorCode, r.minorCode, r.syncTime⟩

/-- `isSyncSuccessful` (SyncLog.cpp:42-47): success iff major code is
SYNC_RESULT_SUCCESS, minor code is NO_ERROR, and the sync time is not
null. -/
def isSyncSuccessful (aResults : SyncResults) : Bool :=
  aResults.majorCode == SYNC_RESULT_SUCCESS
    && aResults.minorCode == NO_ERROR
    && !aResults.syncTime.isNone

/-- The structured-document node exchanged with the persistence layer.  A
serialized `SyncResults` entry is opaque to this core (spec section 6), so it
is carried as a payload; its tag is `TAG_SYNC_RESULTS`, as produced by
`SyncResults::toXml`. -/
inductive XmlNode where
  | elem (tag : String) (attrs : List (String × String)) (children : List XmlNode)
  | resultElem (payload : SyncResults)

/-- The tag of a node. -/
def XmlNode.tag : XmlNode → String
  | .elem t _ _ => t
  | .resultElem _ => TAG_SYNC_RESULTS

/-- `QDomElement::attribute`: the attribute's value, or the empty string
when the attribute is absent. -/
def XmlNode.attribute : XmlNode → String → String
  | .elem _ attrs _, a => ((attrs.lookup a).getD "")
  | .resultElem _, _ => ""

/-- The child elements of a node, in document order. -/
def XmlNode.childElements : XmlNode → List XmlNode
  | .elem _ _ cs => cs
  | .resultElem _ => []

/-- `firstChildElement`/`nextSiblingElement` iteration with a fixed tag:
the children carrying that tag, in document order. -/
def XmlNode.childrenWithTag (n : XmlNode) (t : String) : List XmlNode :=
  n.childElements.filter (fun c => c.tag == t)

/-- Modelled from the spec: `SyncResults::toXml` (outside this core)
serializes one result into a `TAG_SYNC_RESULTS`-tagged node; its internal
shape is owned by the Result type and opaque here. -/
def SyncResults.toXml (r : SyncResults) : XmlNode :=
  .resultElem r

/-- Modelled from the spec: `SyncResults(const QDomElement &)` (outside this
core) deserializes one result from its node; parsing is tolerant and a node
with no result payload yields a default-constructed record. -/
def SyncResults.ofXml : XmlNode → SyncResults
  | .resultElem r => r
  | .elem _ _ _ => ⟨0, 0, none⟩

/-- The log state: `SyncLogPrivate`'s fields (SyncLog.cpp:50-69).
`iResults` is oldest first; `iLastSuccessfulResults` is the best-successful
cache (null pointer = `none`). -/
structure SyncLog where
  iProfileName : String
  iResults : List SyncResults
  iLastSuccessfulResults : Option SyncResults
deriving DecidableEq

/-- `SyncLogPrivate::updateLastSuccessfulResults` (SyncLog.cpp:97-104):
replace the cache with `aResults` iff `aResults` is successful and the cache
is absent or strictly below it. -/
def updateLastSuccessfulResults (best : Option SyncResults) (aResults : SyncResults) :
    Option SyncResults :=
  if isSyncSuccessful aResults
      && (match best with
          | none => true
          | some m => m.lt aResults) then
    some aResults
  else
    best

/-- `MAXLOGENTRIES` (SyncLog.cpp:191): capacity of the retained window. -/
def MAXLOGENTRIES : Nat := 5

/-- `SyncLog::addResults` (SyncLog.cpp:186-204): evict the oldest entry when
at capacity, append a copy of the new result, update the best-successful
cache. -/
def SyncLog.addResults (log : SyncLog) (aResults : SyncResults) : SyncLog :=
  let trimmed :=
    if MAXLOGENTRIES ≤ log.iResults.length then log.iResults.tail
    else log.iResults
  { log with
    iResults := trimmed ++ [aResults],
    iLastSuccessfulResults :=
      updateLastSuccessfulResults log.iLastSuccessfulResults aResults }

/-- `SyncLog::SyncLog(const QString &)` (SyncLog.cpp:106-110): the empty log
for a profile. -/
def SyncLog.ofProfileName (aProfileName : String) : SyncLog :=
  ⟨aProfileName, [], none⟩

/-- `SyncLog::SyncLog(const QDomElement &)` (SyncLog.cpp:112-125): read the
profile name from the root's name attribute, then feed every
`TAG_SYNC_RESULTS` child through `addResults`, in document order.  (The
final sort by sync time is commented out in the source.) -/
def SyncLog.ofXml (aRoot : XmlNode) : SyncLog :=
  (aRoot.childrenWithTag TAG_SYNC_RESULTS).foldl
    (fun log e => log.addResults (SyncResults.ofXml e))
    ⟨aRoot.attribute ATTR_NAME, [], none⟩

/-- `SyncLogPrivate::SyncLogPrivate(const SyncLogPrivate &)` together with
`SyncLog::SyncLog(const SyncLog &)` (SyncLog.cpp:80-88, 127-130): the copy
duplicates the profile name, every retained result, and the best-successful
cache when present. -/
def SyncLog.copy (log : SyncLog) : SyncLog :=
  ⟨log.iProfileName,
   log.iResults.map SyncResults.clone,
   log.iLastSuccessfulResults.map SyncResults.clone⟩

/-- `SyncLog::setProfileName` (SyncLog.cpp:138-141). -/
def SyncLog.setProfileName (log : SyncLog) (aProfileName : String) : SyncLog :=
  { log with iProfileName := aProfileName }

/-- `SyncLog::profileName` (SyncLog.cpp:144-147). -/
def SyncLog.profileName (log : SyncLog) : String :=
  log.iProfileName

/-- `SyncLog::toXml` (SyncLog.cpp:149-164): a `TAG_SYNC_LOG` element with
the profile name attribute; a serialized best-successful child iff the cache
is present and (the retained list is empty or the cache is strictly below
the oldest retained entry); then every retained entry in order. -/
def SyncLog.toXml (log : SyncLog) : XmlNode :=
  let bestChild : List XmlNode :=
    match log.iLastSuccessfulResults, log.iResults with
    | some best, [] => [best.toXml]
    | some best, first :: _ => if best.lt first then [best.toXml] else []
    | none, _ => []
  .elem TAG_SYNC_LOG [(ATTR_NAME, log.iProfileName)]
    (bestChild ++ log.iResults.map SyncResults.toXml)

/-- `SyncLog::lastResults` (SyncLog.cpp:166-174): null on an empty list,
else the last (most recently appended) entry. -/
def SyncLog.lastResults (log : SyncLog) : Option SyncResults :=
  if log.iResults.isEmpty then none
  else log.iResults.getLast?

/-- `SyncLog::allResults` (SyncLog.cpp:176-179). -/
def SyncLog.allResults (log : SyncLog) : List SyncResults :=
  log.iResults

/-- `SyncLog::lastSuccessfulResults` (SyncLog.cpp:181-184). -/
def SyncLog.lastSuccessfulResults (log : SyncLog) : Option SyncResults :=
  log.iLastSuccessfulResults

/-- A sequence of `addResults` calls, in order. -/
def SyncLog.recordAll (log : SyncLog) (rs : List SyncResults) : SyncLog :=
  rs.foldl SyncLog.addResults log

/-- The larger of two results by the Result total order. -/
def maxResult (a b : SyncResults) : SyncResults :=
  if a.lt b then b else a

/-- The maximum of a list of results by the Result total order, `none` on
the empty list. -/
def listMaxResult : List SyncResults → Option SyncResults
  | [] => none
  | a :: as => some (as.foldl maxResult a)

/-- The retained results this log serializes before its retained list: the
best-successful cache exactly when it is present and the retained list is
empty or its oldest entry lies strictly above the cache. -/
def bestEmitted (log : SyncLog) : List SyncResults :=
  match log.iLastSuccessfulResults, log.iResults with
  | some best, [] => [best]
  | some best, first :: _ => if best.lt first then [best] else []
  | none, _ => []

/-- Follows the spec's words (serialization rule): a separate best-successful
child is emitted iff `bestSuccessful` is present AND (the retained sequence
is empty OR `bestSuccessful` is strictly less, by the total order, than the
oldest retained entry). -/
def specBestChildCond (log : SyncLog) : Prop :=
  ∃ b, log.lastSuccessfulResults = some b ∧
    (log.allResults = [] ∨
      ∃ f t, log.allResults = f :: t ∧ SyncResults.lt b f = true)

/-- Follows the spec's words (hydration): construct an empty Log with the
profile name parsed from the identifying attribute, then call *record
result* once per result-tagged child entry, in document order. -/
def hydrateViaRecordResult (aRoot : XmlNode) : SyncLog :=
  (SyncLog.ofProfileName (aRoot.attribute ATTR_NAME)).recordAll
    ((aRoot.childrenWithTag TAG_SYNC_RESULTS).map SyncResults.ofXml)

/-- The two-object system of the deep-copy claim: log A alongside log B,
with *record result* applied to the second log only. -/
def recordOnSecond (pair : SyncLog × SyncLog) (r : SyncResults) :
    SyncLog × SyncLog :=
  (pair.1, pair.2.addResults r)

/-- The two-object system with *record result* applied to the first log
only. -/
def recordOnFirst (pair : SyncLog × SyncLog) (r : SyncResults) :
    SyncLog × SyncLog :=
  (pair.1.addResults r, pair.2)

/-- The two-object system with `setProfileName` applied to the second log
only. -/
def renameOnSecond (pair : SyncLog × SyncLog) (n : String) :
    SyncLog × SyncLog :=
  (pair.1, pair.2.setProfileName n)

/-- One call of the const method `toXml` in state-passing form: the
produced document together with the log state after the call (the method
is `const`, so the post-state is the pre-state). -/
def SyncLog.serializeCall (log : SyncLog) : XmlNode × SyncLog :=
  (log.toXml, log)

theorem encTime_inj : ∀ {x y : Option Nat}, encTime x = encTime y → x = y := by
  intro x y h
  cases x <;> cases y <;> simp_all [encTime]

theorem SyncResults.lt_irrefl (a : SyncResults) : a.lt a = false := by
  simp [SyncResults.lt, SyncResults.ltProp]

theorem SyncResults.lt_trans {a b c : SyncResults} (h1 : a.lt b = true)
    (h2 : b.lt c = true) : a.lt c = true := by
  simp only [SyncResults.lt, decide_eq_true_eq, SyncResults.ltProp] at h1 h2 ⊢
  omega

theorem SyncResults.lt_asymm {a b : SyncResults} (h : a.lt b = true) :
    b.lt a = false := by
  simp only [SyncResults.lt, decide_eq_true_eq, decide_eq_false_iff_not,
    SyncResults.ltProp] at h ⊢
  omega

theorem SyncResults.eq_of_not_lt {a b : SyncResults} (h1 : a.lt b = false)
    (h2 : b.lt a = false) : a = b := by
  simp only [SyncResults.lt, decide_eq_false_iff_not, SyncResults.ltProp] at h1 h2
  have hma : a.majorCode = b.majorCode ∧ a.minorCode = b.minorCode ∧
      encTime a.syncTime = encTime b.syncTime := by omega
  have ht : a.syncTime = b.syncTime := encTime_inj hma.2.2
  cases a
  cases b
  simp_all

/-- `le` transitivity in the `lt _ _ = false` encoding: if `a ≤ b` and
`b ≤ c` then `a ≤ c`. -/
theorem SyncResults.le_trans {a b c : SyncResults} (h1 : b.lt a = false)
    (h2 : c.lt b = false) : c.lt a = false := by
  cases hca : SyncResults.lt c a with
  | false => rfl
  | true =>
    cases hcb : SyncResults.lt c b with
    | true => rw [hcb] at h2; cases h2
    | false =>
      cases hbc : SyncResults.lt b c with
      | true =>
        have := SyncResults.lt_trans hbc hca
        rw [this] at h1
        cases h1
      | false =>
        have hbceq : b = c := SyncResults.eq_of_not_lt hbc hcb
        rw [hbceq] at h1
        rw [hca] at h1
        cases h1

theorem maxResult_le_left (a b : SyncResults) : (maxResult a b).lt a = false := by
  unfold maxResult
  cases h : a.lt b with
  | true => simpa using SyncResults.lt_asymm h
  | false => simpa using SyncResults.lt_irrefl a

theorem maxResult_le_right (a b : SyncResults) : (maxResult a b).lt b = false := by
  unfold maxResult
  cases h : a.lt b with
  | true => simpa using SyncResults.lt_irrefl b
  | false => simpa using h

theorem maxResult_cases (a b : SyncResults) :
    maxResult a b = a ∨ maxResult a b = b := by
  unfold maxResult
  cases h : a.lt b with
  | true => right; simp
  | false => left; simp

theorem foldlMax_mem : ∀ (as : List SyncResults) (a : SyncResults),
    as.foldl maxResult a = a ∨ as.foldl maxResult a ∈ as := by
  intro as
  induction as with
  | nil => intro a; left; rfl
  | cons b bs ih =>
    intro a
    rcases ih (maxResult a b) with h | h
    · rcases maxResult_cases a b with hm | hm
      · left; rw [List.foldl_cons, h, hm]
      · right; rw [List.foldl_cons, h, hm]; exact List.mem_cons_self b bs
    · right
      rw [List.foldl_cons]
      exact List.mem_cons_of_mem b h

theorem foldlMax_ub : ∀ (as : List SyncResults) (a x : SyncResults),
    (x = a ∨ x ∈ as) → (as.foldl maxResult a).lt x = false := by
  intro as
  induction as with
  | nil =>
    intro a x hx
    rcases hx with rfl | h
    · exact SyncResults.lt_irrefl x
    · cases h
  | cons b bs ih =>
    intro a x hx
    rw [List.foldl_cons]
    rcases hx with rfl | h
    · exact SyncResults.le_trans (maxResult_le_left x b) (ih (maxResult x b) _ (Or.inl rfl))
    · rcases List.mem_cons.mp h with rfl | h2
      · exact SyncResults.le_trans (maxResult_le_right a x) (ih (maxResult a x) _ (Or.inl rfl))
      · exact ih (maxResult a b) x (Or.inr h2)

/-- The computed list maximum belongs to the list and dominates it. -/
theorem listMaxResult_spec {l : List SyncResults} {m : SyncResults}
    (h : listMaxResult l = some m) :
    m ∈ l ∧ ∀ x ∈ l, m.lt x = false := by
  cases l with
  | nil => cases h
  | cons a as =>
    simp only [listMaxResult, Option.some.injEq] at h
    subst h
    constructor
    · rcases foldlMax_mem as a with h | h
      · rw [h]; exact List.mem_cons_self a as
      · exact List.mem_cons_of_mem a h
    · intro x hx
      rcases List.mem_cons.mp hx with h2 | h2
      · rw [h2]; exact foldlMax_ub as a a (Or.inl rfl)
      · exact foldlMax_ub as a x (Or.inr h2)

/-- Any member dominating the whole list is the computed list maximum. -/
theorem listMaxResult_eq_some {l : List SyncResults} {m : SyncResults}
    (hm : m ∈ l) (hub : ∀ x ∈ l, m.lt x = false) :
    listMaxResult l = some m := by
  cases hl : listMaxResult l with
  | none =>
    cases l with
    | nil => cases hm
    | cons a as => simp [listMaxResult] at hl
  | some m2 =>
    obtain ⟨hmem2, hub2⟩ := listMaxResult_spec hl
    have h1 : m2.lt m = false := hub2 m hm
    have h2 : m.lt m2 = false := hub m2 hmem2
    rw [SyncResults.eq_of_not_lt h2 h1]

theorem listMaxResult_eq_none {l : List SyncResults} :
    listMaxResult l = none ↔ l = [] := by
  cases l <;> simp [listMaxResult]

theorem addResults_profileName (log : SyncLog) (r : SyncResults) :
    (log.addResults r).iProfileName = log.iProfileName := rfl

theorem recordAll_profileName : ∀ (rs : List SyncResults) (log : SyncLog),
    (log.recordAll rs).iProfileName = log.iProfileName := by
  intro rs
  induction rs with
  | nil => intro log; rfl
  | cons r rs ih =>
    intro log
    show ((log.addResults r).recordAll rs).iProfileName = log.iProfileName
    rw [ih]
    rfl

/-- The retained list after a sequence of `addResults` calls: the initial
window followed by the new results, trimmed on the left to the capacity. -/
theorem recordAll_iResults : ∀ (rs : List SyncResults) (log : SyncLog),
    log.iResults.length ≤ MAXLOGENTRIES →
    (log.recordAll rs).iResults =
      (log.iResults ++ rs).drop (log.iResults.length + rs.length - MAXLOGENTRIES) := by
  intro rs
  induction rs with
  | nil =>
    intro log hlen
    have h0 : log.iResults.length + ([] : List SyncResults).length - MAXLOGENTRIES = 0 := by
      simp only [List.length_nil, MAXLOGENTRIES] at hlen ⊢
      omega
    rw [h0]
    simp [SyncLog.recordAll]
  | cons r rs ih =>
    intro log hlen
    have hstep : log.recordAll (r :: rs) = (log.addResults r).recordAll rs := rfl
    by_cases h5 : MAXLOGENTRIES ≤ log.iResults.length
    · -- at capacity: the oldest entry is evicted
      have hcap : log.iResults.length = MAXLOGENTRIES := le_antisymm hlen h5
      cases hres : log.iResults with
      | nil =>
        rw [hres] at hcap
        simp [MAXLOGENTRIES] at hcap
      | cons first rest =>
        rw [hres] at hcap
        have hcap2 : rest.length + 1 = MAXLOGENTRIES := by
          simpa using hcap
        have h5b : MAXLOGENTRIES ≤ rest.length + 1 := by
          have h5c := h5
          rw [hres] at h5c
          simpa using h5c
        have hadd : (log.addResults r).iResults = rest ++ [r] := by
          simp [SyncLog.addResults, hres, h5b]
        have hcap3 : rest.length + 1 = 5 := by
          simpa only [MAXLOGENTRIES] using hcap2
        have hlen2 : (log.addResults r).iResults.length ≤ MAXLOGENTRIES := by
          rw [hadd]
          simp only [List.length_append, List.length_cons, List.length_nil,
            MAXLOGENTRIES]
          omega
        have hidx1 : (rest ++ [r]).length + rs.length - MAXLOGENTRIES = rs.length := by
          simp only [List.length_append, List.length_cons, List.length_nil,
            MAXLOGENTRIES]
          omega
        have hidx2 : (first :: rest).length + (r :: rs).length - MAXLOGENTRIES =
            rs.length + 1 := by
          simp only [List.length_cons, MAXLOGENTRIES]
          omega
        rw [hstep, ih _ hlen2, hadd, hidx1, hidx2, List.cons_append,
          List.drop_succ_cons]
        simp [List.append_assoc]
    · -- below capacity: plain append
      have hadd : (log.addResults r).iResults = log.iResults ++ [r] := by
        simp [SyncLog.addResults, h5]
      have hlen2 : (log.addResults r).iResults.length ≤ MAXLOGENTRIES := by
        rw [hadd]
        simp only [List.length_append, List.length_cons, List.length_nil,
          MAXLOGENTRIES] at h5 ⊢
        omega
      rw [hstep, ih _ hlen2, hadd]
      simp only [List.length_append, List.length_cons, List.length_nil]
      have harith : log.iResults.length + 1 + rs.length - MAXLOGENTRIES =
          log.iResults.length + (rs.length + 1) - MAXLOGENTRIES := by
        simp only [MAXLOGENTRIES]
        omega
      rw [harith]
      simp [List.append_assoc]

/-- The best-successful cache after a sequence of calls is the fold of the
update rule over the sequence. -/
theorem recordAll_best : ∀ (rs : List SyncResults) (log : SyncLog),
    (log.recordAll rs).iLastSuccessfulResults =
      rs.foldl updateLastSuccessfulResults log.iLastSuccessfulResults := by
  intro rs
  induction rs with
  | nil => intro log; rfl
  | cons r rs ih =>
    intro log
    show ((log.addResults r).recordAll rs).iLastSuccessfulResults = _
    rw [ih]
    rfl

/-- One update step, rephrased: on a successful result it is the binary
maximum against the cache; otherwise it leaves the cache alone. -/
theorem updateLastSuccessfulResults_eq (best : Option SyncResults) (r : SyncResults) :
    updateLastSuccessfulResults best r =
      if isSyncSuccessful r then
        (match best with
         | none => some r
         | some m => some (maxResult m r))
      else best := by
  unfold updateLastSuccessfulResults
  cases hs : isSyncSuccessful r with
  | false => cases best <;> simp
  | true =>
    cases best with
    | none => simp
    | some m =>
      simp only [Bool.true_and, maxResult]
      cases hlt : m.lt r <;> simp

/-- Folding the update rule over a sequence is folding the binary maximum
over its successful entries. -/
theorem foldUpdate_eq_filter : ∀ (rs : List SyncResults) (best : Option SyncResults),
    rs.foldl updateLastSuccessfulResults best =
      (rs.filter (fun r => isSyncSuccessful r)).foldl
        (fun b r =>
          match b with
          | none => some r
          | some m => some (maxResult m r)) best := by
  intro rs
  induction rs with
  | nil => intro best; rfl
  | cons r rs ih =>
    intro best
    rw [List.foldl_cons, ih, List.filter_cons]
    cases hs : isSyncSuccessful r with
    | false =>
      simp only [Bool.false_eq_true, if_false]
      rw [updateLastSuccessfulResults_eq, hs]
      simp
    | true =>
      simp only [if_true]
      rw [List.foldl_cons, updateLastSuccessfulResults_eq, hs]
      simp

theorem foldMaxStep_some : ∀ (l : List SyncResults) (m : SyncResults),
    l.foldl
        (fun b r =>
          match b with
          | none => some r
          | some m2 => some (maxResult m2 r)) (some m) =
      some (l.foldl maxResult m) := by
  intro l
  induction l with
  | nil => intro m; rfl
  | cons a as ih => intro m; rw [List.foldl_cons, List.foldl_cons, ih]

/-- Folding the binary maximum from `none` computes the list maximum. -/
theorem foldMaxStep_none (l : List SyncResults) :
    l.foldl
        (fun b r =>
          match b with
          | none => some r
          | some m2 => some (maxResult m2 r)) none =
      listMaxResult l := by
  cases l with
  | nil => rfl
  | cons a as =>
    rw [List.foldl_cons, listMaxResult]
    exact foldMaxStep_some as a

/-- The best-successful cache after recording a whole sequence on an empty
log is the maximum of the successful entries of the sequence. -/
theorem recordAll_best_eq_listMax (p : String) (rs : List SyncResults) :
    ((SyncLog.ofProfileName p).recordAll rs).iLastSuccessfulResults =
      listMaxResult (rs.filter (fun r => isSyncSuccessful r)) := by
  rw [recordAll_best]
  show rs.foldl updateLastSuccessfulResults none = _
  rw [foldUpdate_eq_filter, foldMaxStep_none]

/-- The serialized children: the conditionally-emitted best-successful node
followed by every retained entry, all serialized. -/
theorem toXml_childElements (log : SyncLog) :
    (log.toXml).childElements =
      (bestEmitted log ++ log.iResults).map SyncResults.toXml := by
  unfold SyncLog.toXml bestEmitted
  cases hb : log.iLastSuccessfulResults with
  | none => simp [XmlNode.childElements]
  | some best =>
    cases hres : log.iResults with
    | nil => simp [XmlNode.childElements]
    | cons first rest =>
      cases hlt : best.lt first <;>
        simp [XmlNode.childElements, hlt]

theorem toXml_attribute (log : SyncLog) :
    (log.toXml).attribute ATTR_NAME = log.iProfileName := by
  unfold SyncLog.toXml XmlNode.attribute
  simp [List.lookup]

theorem toXml_childrenWithTag (log : SyncLog) :
    (log.toXml).childrenWithTag TAG_SYNC_RESULTS =
      (bestEmitted log ++ log.iResults).map SyncResults.toXml := by
  unfold XmlNode.childrenWithTag
  rw [toXml_childElements]
  rw [List.filter_eq_self.mpr]
  intro a ha
  obtain ⟨r, _, rfl⟩ := List.mem_map.mp ha
  simp [SyncResults.toXml, XmlNode.tag]

/-- Hydrating a serialized log replays the emitted best-successful node (when
present) and the retained entries through `addResults`, on the empty log for
the same profile name. -/
theorem ofXml_toXml (log : SyncLog) :
    SyncLog.ofXml log.toXml =
      (SyncLog.ofProfileName log.iProfileName).recordAll
        (bestEmitted log ++ log.iResults) := by
  unfold SyncLog.ofXml
  rw [toXml_childrenWithTag, toXml_attribute, List.foldl_map]
  rfl

theorem SyncLog.extEq {a b : SyncLog} (h1 : a.iProfileName = b.iProfileName)
    (h2 : a.iResults = b.iResults)
    (h3 : a.iLastSuccessfulResults = b.iLastSuccessfulResults) : a = b := by
  cases a
  cases b
  simp_all

/-- Replaying a short list on the empty log retains it whole. -/
theorem recordAll_empty_iResults (p : String) (l : List SyncResults)
    (hlen : l.length ≤ MAXLOGENTRIES) :
    ((SyncLog.ofProfileName p).recordAll l).iResults = l := by
  rw [recordAll_iResults l _ (by simp [SyncLog.ofProfileName, MAXLOGENTRIES])]
  simp only [SyncLog.ofProfileName, List.nil_append, List.length_nil, Nat.zero_add]
  rw [Nat.sub_eq_zero_of_le hlen, List.drop_zero]

/-- Serialization followed by hydration reproduces the log state exactly,
provided the results were recorded in nondecreasing order of the Result
total order (the chronological-order assumption the component makes on its
callers). -/
theorem hydrate_toXml_of_sorted (p : String) (rs : List SyncResults)
    (hsort : rs.Pairwise (fun a b => SyncResults.lt b a = false)) :
    SyncLog.ofXml ((SyncLog.ofProfileName p).recordAll rs).toXml =
      (SyncLog.ofProfileName p).recordAll rs := by
  set L := (SyncLog.ofProfileName p).recordAll rs with hL
  have hprof : L.iProfileName = p := recordAll_profileName rs _
  have hres : L.iResults = rs.drop (rs.length - MAXLOGENTRIES) := by
    rw [hL, recordAll_iResults rs _ (by simp [SyncLog.ofProfileName, MAXLOGENTRIES])]
    simp [SyncLog.ofProfileName]
  have hlenL : L.iResults.length ≤ MAXLOGENTRIES := by
    rw [hres, List.length_drop]
    simp only [MAXLOGENTRIES]
    omega
  have hbest : L.iLastSuccessfulResults =
      listMaxResult (rs.filter (fun r => isSyncSuccessful r)) := by
    rw [hL]
    exact recordAll_best_eq_listMax p rs
  have hsubset : ∀ x, x ∈ L.iResults → x ∈ rs := by
    intro x hx
    rw [hres] at hx
    exact List.drop_subset _ rs hx
  rw [ofXml_toXml, hprof]
  cases hb : L.iLastSuccessfulResults with
  | none =>
    have h1 : listMaxResult (rs.filter (fun r => isSyncSuccessful r)) = none := by
      rw [← hbest, hb]
    have hfilter : rs.filter (fun r => isSyncSuccessful r) = [] :=
      listMaxResult_eq_none.mp h1
    have hbe : bestEmitted L = [] := by
      simp [bestEmitted, hb]
    rw [hbe, List.nil_append]
    apply SyncLog.extEq
    · rw [recordAll_profileName]
      exact hprof.symm
    · exact recordAll_empty_iResults p _ hlenL
    · rw [recordAll_best_eq_listMax, hb, listMaxResult_eq_none]
      rw [List.filter_eq_nil_iff] at hfilter ⊢
      intro a ha
      exact hfilter a (hsubset a ha)
  | some m =>
    have hspec : listMaxResult (rs.filter (fun r => isSyncSuccessful r)) = some m := by
      rw [← hbest, hb]
    obtain ⟨hmem, hub⟩ := listMaxResult_spec hspec
    have hmsucc : isSyncSuccessful m = true := (List.mem_filter.mp hmem).2
    have hmrs : m ∈ rs := (List.mem_filter.mp hmem).1
    have hubl : ∀ x ∈ L.iResults.filter (fun r => isSyncSuccessful r),
        m.lt x = false := by
      intro x hx
      obtain ⟨hxl, hxs⟩ := List.mem_filter.mp hx
      exact hub x (List.mem_filter.mpr ⟨hsubset x hxl, hxs⟩)
    have hsplit : rs.take (rs.length - MAXLOGENTRIES) ++
        rs.drop (rs.length - MAXLOGENTRIES) = rs :=
      List.take_append_drop _ rs
    have hsort2 : (rs.take (rs.length - MAXLOGENTRIES) ++
        rs.drop (rs.length - MAXLOGENTRIES)).Pairwise
          (fun a b => SyncResults.lt b a = false) := by
      rw [hsplit]
      exact hsort
    have hpair := (List.pairwise_append.mp hsort2).2.2
    have hmem_split : m ∈ rs.take (rs.length - MAXLOGENTRIES) ∨
        m ∈ rs.drop (rs.length - MAXLOGENTRIES) := by
      have h2 := hmrs
      rw [← hsplit] at h2
      exact List.mem_append.mp h2
    cases hr : L.iResults with
    | nil =>
      exfalso
      have hres2 : rs.drop (rs.length - MAXLOGENTRIES) = [] := by
        rw [← hres, hr]
      have hlen0 : rs.length - (rs.length - MAXLOGENTRIES) = 0 := by
        rw [← List.length_drop, hres2]
        rfl
      have hrs0 : rs.length = 0 := by
        simp only [MAXLOGENTRIES] at hlen0
        omega
      rw [List.eq_nil_of_length_eq_zero hrs0] at hmrs
      cases hmrs
    | cons first rest =>
      have hfirstl : first ∈ L.iResults := by
        rw [hr]
        exact List.mem_cons_self first rest
      have hfirstdrop : first ∈ rs.drop (rs.length - MAXLOGENTRIES) := by
        rw [← hres]
        exact hfirstl
      cases hlt : SyncResults.lt m first with
      | false =>
        have hbe : bestEmitted L = [] := by
          simp [bestEmitted, hb, hr, hlt]
        rw [hbe, List.nil_append]
        have hml : m ∈ L.iResults := by
          rcases hmem_split with htake | hdrop
          · have hfm : SyncResults.lt first m = false := hpair m htake first hfirstdrop
            have hmeq : m = first := SyncResults.eq_of_not_lt hlt hfm
            rw [hr, hmeq]
            exact List.mem_cons_self first rest
          · rw [hres]
            exact hdrop
        apply SyncLog.extEq
        · rw [recordAll_profileName]
          exact hprof.symm
        · rw [← hr]
          exact recordAll_empty_iResults p _ hlenL
        · rw [← hr, recordAll_best_eq_listMax, hb]
          exact listMaxResult_eq_some (List.mem_filter.mpr ⟨hml, hmsucc⟩) hubl
      | true =>
        have hbe : bestEmitted L = [m] := by
          simp [bestEmitted, hb, hr, hlt]
        rw [hbe]
        have hsortL : L.iResults.Pairwise (fun a b => SyncResults.lt b a = false) := by
          rw [hres]
          exact List.Pairwise.sublist (List.drop_sublist _ rs) hsort
        have hmnotl : m ∉ L.iResults := by
          rw [hr]
          intro hm
          rw [hr] at hsortL
          rcases List.mem_cons.mp hm with heq | hmr
          · rw [heq, SyncResults.lt_irrefl] at hlt
            cases hlt
          · have hfm := (List.pairwise_cons.mp hsortL).1 m hmr
            rw [hfm] at hlt
            cases hlt
        have hmtake : m ∈ rs.take (rs.length - MAXLOGENTRIES) := by
          rcases hmem_split with htake | hdrop
          · exact htake
          · exfalso
            rw [← hres] at hdrop
            exact hmnotl hdrop
        have hk1 : 1 ≤ rs.length - MAXLOGENTRIES := by
          by_contra h0
          have hk0 : rs.length - MAXLOGENTRIES = 0 := by omega
          rw [hk0, List.take_zero] at hmtake
          cases hmtake
        have hlen5 : L.iResults.length = MAXLOGENTRIES := by
          rw [hres, List.length_drop]
          simp only [MAXLOGENTRIES] at hk1 ⊢
          omega
        have hlen5b : rest.length + 1 = MAXLOGENTRIES := by
          rw [hr] at hlen5
          simpa using hlen5
        apply SyncLog.extEq
        · rw [recordAll_profileName]
          exact hprof.symm
        · rw [recordAll_iResults _ _ (by simp [SyncLog.ofProfileName, MAXLOGENTRIES])]
          simp only [SyncLog.ofProfileName, List.nil_append, List.length_nil,
            Nat.zero_add, List.singleton_append, List.length_cons]
          rw [show rest.length + 1 + 1 - MAXLOGENTRIES = 1 by
            simp only [MAXLOGENTRIES] at hlen5b ⊢
            omega]
          rw [List.drop_succ_cons, List.drop_zero, ← hr]
        · rw [show ([m] ++ (first :: rest)) = m :: (first :: rest) from rfl, ← hr,
            recordAll_best_eq_listMax, hb]
          apply listMaxResult_eq_some
          · exact List.mem_filter.mpr ⟨List.mem_cons_self m L.iResults, hmsucc⟩
          · intro x hx
            obtain ⟨hxm, hxs⟩ := List.mem_filter.mp hx
            rcases List.mem_cons.mp hxm with heq | hxl
            · rw [heq]
              exact SyncResults.lt_irrefl m
            · exact hubl x (List.mem_filter.mpr ⟨hxl, hxs⟩)

theorem SyncResults.clone_eq (r : SyncResults) : r.clone = r := rfl

theorem SyncLog.copy_eq (log : SyncLog) : log.copy = log := by
  cases log with
  | mk p l b =>
    unfold SyncLog.copy
    simp only [SyncLog.mk.injEq, true_and]
    constructor
    · induction l with
      | nil => rfl
      | cons x xs ih => simp [SyncResults.clone_eq, ih]
    · cases b <;> simp [SyncResults.clone_eq]

/-- C1: for every sequence of recorded results on an empty Log, the retained
sequence is exactly the last `min(N, 5)` results in recording order (oldest
first), so its length is `min(N, 5)` and never exceeds 5. -/
theorem capacity_invariant (p : String) (rs : List SyncResults) :
    ((SyncLog.ofProfileName p).recordAll rs).allResults
        = rs.drop (rs.length - MAXLOGENTRIES)
    ∧ ((SyncLog.ofProfileName p).recordAll rs).allResults.length
        = min rs.length MAXLOGENTRIES := by
  have h : ((SyncLog.ofProfileName p).recordAll rs).iResults
      = rs.drop (rs.length - MAXLOGENTRIES) := by
    rw [recordAll_iResults rs _ (by simp [SyncLog.ofProfileName, MAXLOGENTRIES])]
    simp [SyncLog.ofProfileName]
  refine ⟨h, ?_⟩
  show ((SyncLog.ofProfileName p).recordAll rs).iResults.length = _
  rw [h, List.length_drop]
  simp only [MAXLOGENTRIES]
  omega

/-- C2: after recording a whole sequence on an empty Log, the
best-successful cache is the maximum, by the Result total order, of the
successful entries of the sequence; it is absent iff no entry was
successful; and it dominates every successful entry ever recorded,
eviction notwithstanding. -/
theorem best_successful_monotonicity (p : String) (rs : List SyncResults) :
    ((SyncLog.ofProfileName p).recordAll rs).lastSuccessfulResults
        = listMaxResult (rs.filter (fun r => isSyncSuccessful r))
    ∧ (((SyncLog.ofProfileName p).recordAll rs).lastSuccessfulResults = none
        ↔ ∀ r ∈ rs, isSyncSuccessful r = false)
    ∧ (∀ r ∈ rs, isSyncSuccessful r = true →
        ∃ m, ((SyncLog.ofProfileName p).recordAll rs).lastSuccessfulResults = some m
          ∧ SyncResults.lt m r = false) := by
  have h : ((SyncLog.ofProfileName p).recordAll rs).lastSuccessfulResults
      = listMaxResult (rs.filter (fun r => isSyncSuccessful r)) :=
    recordAll_best_eq_listMax p rs
  refine ⟨h, ?_, ?_⟩
  · rw [h, listMaxResult_eq_none, List.filter_eq_nil_iff]
    constructor
    · intro hall r hr
      have := hall r hr
      simpa using this
    · intro hall r hr
      simp [hall r hr]
  · intro r hr hsucc
    have hrf : r ∈ rs.filter (fun r => isSyncSuccessful r) :=
      List.mem_filter.mpr ⟨hr, hsucc⟩
    cases hmax : listMaxResult (rs.filter (fun r => isSyncSuccessful r)) with
    | none =>
      rw [listMaxResult_eq_none] at hmax
      rw [hmax] at hrf
      cases hrf
    | some m =>
      obtain ⟨_, hub⟩ := listMaxResult_spec hmax
      exact ⟨m, by rw [h, hmax], hub r hrf⟩

/-- C3: the serialized form carries a separate best-successful child node
iff the best-successful cache is present and (the retained sequence is
empty or the cache is strictly below the oldest retained entry); in every
other case only the retained entries are emitted. -/
theorem best_node_emission (log : SyncLog) :
    (specBestChildCond log →
      ∃ b, log.lastSuccessfulResults = some b ∧
        (log.toXml).childElements =
          SyncResults.toXml b :: log.allResults.map SyncResults.toXml)
    ∧ (¬ specBestChildCond log →
        (log.toXml).childElements = log.allResults.map SyncResults.toXml) := by
  constructor
  · intro hcond
    obtain ⟨b, hb, hc⟩ := hcond
    refine ⟨b, hb, ?_⟩
    rw [toXml_childElements]
    have hbe : bestEmitted log = [b] := by
      rcases hc with hnil | ⟨f, t, hft, hlt⟩
      · simp [bestEmitted, show log.iLastSuccessfulResults = some b from hb,
          show log.iResults = [] from hnil]
      · simp [bestEmitted, show log.iLastSuccessfulResults = some b from hb,
          show log.iResults = f :: t from hft, hlt]
    rw [hbe]
    rfl
  · intro hncond
    rw [toXml_childElements]
    have hbe : bestEmitted log = [] := by
      cases hb : log.iLastSuccessfulResults with
      | none => simp [bestEmitted, hb]
      | some b =>
        cases hr : log.iResults with
        | nil =>
          exfalso
          exact hncond ⟨b, hb, Or.inl hr⟩
        | cons f t =>
          cases hlt : SyncResults.lt b f with
          | true =>
            exfalso
            exact hncond ⟨b, hb, Or.inr ⟨f, t, hr, hlt⟩⟩
          | false => simp [bestEmitted, hb, hr, hlt]
    rw [hbe]
    rfl

/-- C4 (counterexample to the claim as stated): recording one successful
result followed by five later-but-unsuccessful ones evicts the successful
result while the best-successful cache still holds it; serialization then
emits no best-successful node (the cache is not below the oldest retained
entry), so hydration of the produced document loses `bestSuccessful`. -/
theorem roundTrip_counterexample :
    ¬ ((SyncLog.ofXml ((SyncLog.ofProfileName "p").recordAll
          [⟨0, 0, some 10⟩, ⟨1, 0, some 1⟩, ⟨1, 0, some 2⟩,
           ⟨1, 0, some 3⟩, ⟨1, 0, some 4⟩, ⟨1, 0, some 5⟩]).toXml).lastSuccessfulResults
        = ((SyncLog.ofProfileName "p").recordAll
          [⟨0, 0, some 10⟩, ⟨1, 0, some 1⟩, ⟨1, 0, some 2⟩,
           ⟨1, 0, some 3⟩, ⟨1, 0, some 4⟩, ⟨1, 0, some 5⟩]).lastSuccessfulResults) := by
  decide

/-- C4 (amended): when the results were recorded in nondecreasing order of
the Result total order — the chronological-order assumption the component
places on its callers — serializing and hydrating reproduces the Log state
exactly (profileName, retained sequence, bestSuccessful), and re-serializing
the reconstructed Log produces the same document. -/
theorem roundTrip_of_sorted (p : String) (rs : List SyncResults)
    (hsort : rs.Pairwise (fun a b => SyncResults.lt b a = false)) :
    SyncLog.ofXml ((SyncLog.ofProfileName p).recordAll rs).toXml
        = (SyncLog.ofProfileName p).recordAll rs
    ∧ (SyncLog.ofXml ((SyncLog.ofProfileName p).recordAll rs).toXml).profileName
        = ((SyncLog.ofProfileName p).recordAll rs).profileName
    ∧ (SyncLog.ofXml ((SyncLog.ofProfileName p).recordAll rs).toXml).allResults
        = ((SyncLog.ofProfileName p).recordAll rs).allResults
    ∧ (SyncLog.ofXml ((SyncLog.ofProfileName p).recordAll rs).toXml).lastSuccessfulResults
        = ((SyncLog.ofProfileName p).recordAll rs).lastSuccessfulResults
    ∧ (SyncLog.ofXml ((SyncLog.ofProfileName p).recordAll rs).toXml).toXml
        = ((SyncLog.ofProfileName p).recordAll rs).toXml := by
  have h := hydrate_toXml_of_sorted p rs hsort
  exact ⟨h, by rw [h], by rw [h], by rw [h], by rw [h]⟩

/-- Witness for the amended round-trip at a concrete sorted input. -/
theorem roundTrip_of_sorted_witness :
    ([⟨0, 0, some 1⟩, ⟨1, 0, some 2⟩] : List SyncResults).Pairwise
        (fun a b => SyncResults.lt b a = false)
    ∧ (SyncLog.ofXml ((SyncLog.ofProfileName "profile").recordAll
          [⟨0, 0, some 1⟩, ⟨1, 0, some 2⟩]).toXml
        = (SyncLog.ofProfileName "profile").recordAll
          [⟨0, 0, some 1⟩, ⟨1, 0, some 2⟩]
      ∧ (SyncLog.ofXml ((SyncLog.ofProfileName "profile").recordAll
          [⟨0, 0, some 1⟩, ⟨1, 0, some 2⟩]).toXml).profileName
        = ((SyncLog.ofProfileName "profile").recordAll
          [⟨0, 0, some 1⟩, ⟨1, 0, some 2⟩]).profileName
      ∧ (SyncLog.ofXml ((SyncLog.ofProfileName "profile").recordAll
          [⟨0, 0, some 1⟩, ⟨1, 0, some 2⟩]).toXml).allResults
        = ((SyncLog.ofProfileName "profile").recordAll
          [⟨0, 0, some 1⟩, ⟨1, 0, some 2⟩]).allResults
      ∧ (SyncLog.ofXml ((SyncLog.ofProfileName "profile").recordAll
          [⟨0, 0, some 1⟩, ⟨1, 0, some 2⟩]).toXml).lastSuccessfulResults
        = ((SyncLog.ofProfileName "profile").recordAll
          [⟨0, 0, some 1⟩, ⟨1, 0, some 2⟩]).lastSuccessfulResults
      ∧ (SyncLog.ofXml ((SyncLog.ofProfileName "profile").recordAll
          [⟨0, 0, some 1⟩, ⟨1, 0, some 2⟩]).toXml).toXml
        = ((SyncLog.ofProfileName "profile").recordAll
          [⟨0, 0, some 1⟩, ⟨1, 0, some 2⟩]).toXml) :=
  ⟨by decide, roundTrip_of_sorted "profile" [⟨0, 0, some 1⟩, ⟨1, 0, some 2⟩] (by decide)⟩

/-- C5: a Result is successful iff its major code is SUCCESS, its minor
code is NO_ERROR, and its sync time is set; an unsuccessful Result never
updates the best-successful cache. -/
theorem success_predicate_correct (r : SyncResults) :
    (isSyncSuccessful r = true ↔
      (r.majorCode = SYNC_RESULT_SUCCESS ∧ r.minorCode = NO_ERROR ∧
        r.syncTime ≠ none))
    ∧ (isSyncSuccessful r = false →
        ∀ best, updateLastSuccessfulResults best r = best) := by
  constructor
  · cases h : r.syncTime <;> simp [isSyncSuccessful, h]
  · intro hfail best
    simp [updateLastSuccessfulResults, hfail]

/-- C6: constructing a Log from a serialized document is exactly
constructing an empty Log with the parsed profile name and recording each
result-tagged child through the runtime *record result* path, in document
order. -/
theorem hydration_refines_record_result (aRoot : XmlNode) :
    SyncLog.ofXml aRoot = hydrateViaRecordResult aRoot := by
  unfold SyncLog.ofXml hydrateViaRecordResult SyncLog.recordAll
  rw [List.foldl_map]
  rfl

/-- C7: the copy of a Log agrees with the original on every observable, and
in the two-object system mutating one log (by *record result* or
`setProfileName`) leaves the other component untouched — ownership is
duplicated, never shared. -/
theorem deep_copy_isolation (aSource : SyncLog) (r : SyncResults) (n : String) :
    aSource.copy.profileName = aSource.profileName
    ∧ aSource.copy.allResults = aSource.allResults
    ∧ aSource.copy.lastSuccessfulResults = aSource.lastSuccessfulResults
    ∧ (recordOnSecond (aSource, aSource.copy) r).1 = aSource
    ∧ (renameOnSecond (aSource, aSource.copy) n).1 = aSource
    ∧ (recordOnFirst (aSource.copy, aSource) r).2 = aSource := by
  rw [SyncLog.copy_eq]
  exact ⟨rfl, rfl, rfl, rfl, rfl, rfl⟩

/-- C8: the most-recent-result accessor yields the tail of the retained
sequence and an explicit `none` on an empty Log, and the best-successful
accessor yields `none` when the cache is absent — no failure paths. -/
theorem empty_accessors_total (log : SyncLog) :
    (log.allResults = [] → log.lastResults = none)
    ∧ log.lastResults = log.allResults.getLast?
    ∧ (log.iLastSuccessfulResults = none → log.lastSuccessfulResults = none) := by
  refine ⟨?_, ?_, fun h => h⟩
  · intro h
    simp [SyncLog.lastResults, show log.iResults = [] from h]
  · show SyncLog.lastResults log = log.iResults.getLast?
    unfold SyncLog.lastResults
    cases h : log.iResults <;> simp [h]

/-- C9: immediately after `addResults r`, on any prior state, the retained
sequence is non-empty and the most-recent-result accessor returns `r`. -/
theorem lastResults_after_add (log : SyncLog) (r : SyncResults) :
    (log.addResults r).allResults ≠ []
    ∧ (log.addResults r).lastResults = some r := by
  have hres : (log.addResults r).iResults =
      (if MAXLOGENTRIES ≤ log.iResults.length then log.iResults.tail
       else log.iResults) ++ [r] := rfl
  constructor
  · show (log.addResults r).iResults ≠ []
    rw [hres]
    simp
  · unfold SyncLog.lastResults
    rw [hres]
    simp

/-- C10: serialization is observably read-only — the log state after a
`toXml` call is the state before it, every observable is unchanged, and
serializing the same Log twice yields equal documents. -/
theorem toXml_readonly_deterministic (log : SyncLog) :
    (log.serializeCall).2 = log
    ∧ (log.serializeCall).2.profileName = log.profileName
    ∧ (log.serializeCall).2.allResults = log.allResults
    ∧ (log.serializeCall).2.lastSuccessfulResults = log.lastSuccessfulResults
    ∧ ((log.serializeCall).2.serializeCall).1 = (log.serializeCall).1 :=
  ⟨rfl, rfl, rfl, rfl, rfl⟩

end Buteo
